import Mathlib

/-!
Verification of the WodBot scraper pipeline.

This file gives a shallow embedding of `scraper.py` — `fetch_wod_html`,
`parse_wod`, `format_date`, `get_todays_wod` — over an explicit HTML-tree
model of the parsed markup, and proves the specified properties of the
pipeline against that embedding.
-/

namespace Wod

/-! ## Character and string utilities (Python `str` operations) -/

/-- Whitespace test used by Python `str.strip` (ASCII whitespace). -/
abbrev ws (c : Char) : Bool := c.isWhitespace

/-- Drop whitespace from the left, then from the right: Python `str.strip()`
on a character list. -/
def stripChars (l : List Char) : List Char :=
  ((l.dropWhile ws).reverse.dropWhile ws).reverse

/-- Python `str.strip()`. -/
def pyStrip (s : String) : String := String.mk (stripChars s.data)

/-- ASCII lowercasing of a character list (Python `str.lower()` restricted to
the ASCII texts the scraper manipulates). -/
def lowerL (l : List Char) : List Char := l.map Char.toLower

/-- Python `str.lower()`. -/
def lowerStr (s : String) : String := String.mk (lowerL s.data)

/-- Does `hay` start with `sub`? (first argument is the candidate start). -/
def startsWithCL : List Char → List Char → Bool
  | [], _ => true
  | _ :: _, [] => false
  | a :: as, b :: bs => a == b && startsWithCL as bs

/-- Python substring containment `sub in hay` on character lists. -/
def subL (hay sub : List Char) : Bool :=
  match hay with
  | [] => startsWithCL sub []
  | c :: t => startsWithCL sub (c :: t) || subL t sub

/-- Python `sub in hay` on strings. -/
def pyContains (hay sub : String) : Bool := subL hay.data sub.data

/-- Substring containment as a proposition: `hay` decomposes around `sub`. -/
def SubIn (sub hay : List Char) : Prop := ∃ u v, hay = u ++ sub ++ v

/-! ## Calendar dates -/

/-- A calendar date, the information carried by the Python `datetime` values
the scraper constructs. -/
structure Date where
  y : Nat
  m : Nat
  d : Nat
deriving Repr, DecidableEq

/-- Gregorian leap-year rule, as implemented by Python `datetime`. -/
def isLeap (y : Nat) : Bool := (y % 4 == 0 && y % 100 != 0) || y % 400 == 0

/-- Number of days in a month, as validated by Python `datetime`. -/
def daysInMonth (y m : Nat) : Nat :=
  if m == 2 then (if isLeap y then 29 else 28)
  else if m == 4 || m == 6 || m == 9 || m == 11 then 30
  else 31

/-- The dates `datetime(year, month, day)` accepts without raising. -/
def Date.valid (t : Date) : Bool :=
  decide (1 ≤ t.y ∧ t.y ≤ 9999 ∧ 1 ≤ t.m ∧ t.m ≤ 12 ∧
    1 ≤ t.d ∧ t.d ≤ daysInMonth t.y t.m)

/-- Python `int()` on a string of ASCII digits. -/
def digitsToNat (l : List Char) : Nat :=
  l.foldl (fun a c => a * 10 + (c.toNat - 48)) 0

/-- Zero-padded two-digit rendering, Python `f"{n:02d}"` for `n < 100`. -/
def pad2 (n : Nat) : String := if n < 10 then "0" ++ toString n else toString n

/-- Zero-padded four-digit rendering, Python `f"{n:04d}"` for `n < 10000`. -/
def pad4 (n : Nat) : String :=
  if n < 10 then "000" ++ toString n
  else if n < 100 then "00" ++ toString n
  else if n < 1000 then "0" ++ toString n
  else toString n

/-- The `YYYY-MM-DD` rendering used both by the scraper's f-string and by
`datetime.now().strftime("%Y-%m-%d")`. -/
def renderDate (t : Date) : String := pad4 t.y ++ "-" ++ pad2 t.m ++ "-" ++ pad2 t.d

/-- `datetime.now().strftime("%Y-%m-%d")` for a given current date. -/
def todayStr (today : Date) : String := renderDate today

/-- Year digits of a six-character token `YYMMDD`: `int(date_str[:2])`. -/
def tokYY (s : String) : Nat := digitsToNat (s.data.take 2)

/-- Month digits of a six-character token: `int(date_str[2:4])`. -/
def tokMM (s : String) : Nat := digitsToNat ((s.data.drop 2).take 2)

/-- Day digits of a six-character token: `int(date_str[4:6])`. -/
def tokDD (s : String) : Nat := digitsToNat (s.data.drop 4)

/-- The year the source computes:
`2000 + year_2digit if year_2digit < 100 else year_2digit`. -/
def tokYear (s : String) : Nat :=
  if tokYY s < 100 then 2000 + tokYY s else tokYY s

/-- `format_date` from `scraper.py`: convert a token like `"251130"` to
`"2025-11-30"`, falling back to today's date on any invalid input. The
current date is passed explicitly (`datetime.now()` in the source). -/
def format_date (date_str : String) (today : Date) : String :=
  if date_str.length == 6 && date_str.data.all Char.isDigit then
    if 1 ≤ tokMM date_str ∧ tokMM date_str ≤ 12 ∧
        1 ≤ tokDD date_str ∧ tokDD date_str ≤ 31 then
      if Date.valid ⟨tokYear date_str, tokMM date_str, tokDD date_str⟩ then
        renderDate ⟨tokYear date_str, tokMM date_str, tokDD date_str⟩
      else todayStr today
    else todayStr today
  else todayStr today

/-- The spec's acceptance condition on tokens: exactly six digits, month in
`1..12`, day valid for that month in year `2000 + YY`. -/
def goodToken (s : String) : Bool :=
  s.length == 6 && s.data.all Char.isDigit &&
    decide (1 ≤ tokMM s ∧ tokMM s ≤ 12 ∧ 1 ≤ tokDD s ∧
      tokDD s ≤ daysInMonth (2000 + tokYY s) (tokMM s))

/-- The date denoted by a good token, following the spec's words:
year `2000 + YY`, month `MM`, day `DD`. -/
def tokenDate (s : String) : Date := ⟨2000 + tokYY s, tokMM s, tokDD s⟩

/-- `normalize` exactly as the spec states it: good tokens map to their
`YYYY-MM-DD` rendering, every other token maps to today's date. -/
def specNormalize (s : String) (today : Date) : String :=
  if goodToken s then renderDate (tokenDate s) else todayStr today

/-! ### Arithmetic facts about the date helpers -/

theorem toNat_ofNatAux (n : Nat) (h : n.isValidChar) :
    (Char.ofNatAux n h).toNat = n := rfl

theorem ws_toLower (c : Char) :
    (Char.toLower c).isWhitespace = c.isWhitespace := by
  unfold Char.toLower
  dsimp only
  by_cases h : c.toNat ≥ 65 ∧ c.toNat ≤ 90
  · rw [if_pos h]
    obtain ⟨h1, h2⟩ := h
    have hv : (c.toNat + 32).isValidChar := by
      left
      omega
    have hval : (Char.ofNat (c.toNat + 32)).toNat = c.toNat + 32 := by
      unfold Char.ofNat
      rw [dif_pos hv]
      exact toNat_ofNatAux _ hv
    have hcw : c.isWhitespace = false := by
      unfold Char.isWhitespace
      simp only [Bool.or_eq_false_iff, decide_eq_false_iff_not]
      refine ⟨⟨⟨?_, ?_⟩, ?_⟩, ?_⟩ <;> intro he <;> subst he <;> simp_all
    have hdw : (Char.ofNat (c.toNat + 32)).isWhitespace = false := by
      unfold Char.isWhitespace
      simp only [Bool.or_eq_false_iff, decide_eq_false_iff_not]
      have hne : (Char.ofNat (c.toNat + 32)).toNat ≠ 32 ∧
          (Char.ofNat (c.toNat + 32)).toNat ≠ 9 ∧
          (Char.ofNat (c.toNat + 32)).toNat ≠ 13 ∧
          (Char.ofNat (c.toNat + 32)).toNat ≠ 10 := by
        rw [hval]; omega
      refine ⟨⟨⟨?_, ?_⟩, ?_⟩, ?_⟩ <;> intro he <;> rw [he] at hne <;> simp_all
    rw [hcw, hdw]
  · rw [if_neg h]

theorem isDigit_toNat_bounds (c : Char) (h : c.isDigit = true) :
    48 ≤ c.toNat ∧ c.toNat ≤ 57 := by
  unfold Char.isDigit at h
  simp only [Bool.and_eq_true, decide_eq_true_eq] at h
  obtain ⟨h1, h2⟩ := h
  constructor
  · exact h1
  · exact h2

theorem digitsToNat_two_lt_100 (l : List Char)
    (hd : ∀ c ∈ l, c.isDigit = true) (hl : l.length = 2) :
    digitsToNat l < 100 := by
  match l, hl with
  | [a, b], _ =>
    have ha := isDigit_toNat_bounds a (hd a (by simp))
    have hb := isDigit_toNat_bounds b (hd b (by simp))
    simp only [digitsToNat, List.foldl]
    omega

theorem daysInMonth_le_31 (y m : Nat) : daysInMonth y m ≤ 31 := by
  unfold daysInMonth
  repeat' split
  all_goals omega

/-- C1: `format_date` is total and agrees everywhere with the specified
`normalize`: a six-digit token with month in `1..12` and a day valid for that
month and year is rendered as `YYYY-MM-DD` with year `2000 + YY`; every other
token yields today's date. -/
theorem format_date_matches_spec (s : String) (today : Date) :
    format_date s today = specNormalize s today := by
  unfold format_date specNormalize
  by_cases h6 : (s.length == 6 && s.data.all Char.isDigit) = true
  · rw [if_pos h6]
    have h6' := h6
    simp only [Bool.and_eq_true, beq_iff_eq] at h6'
    obtain ⟨hlen, hdig⟩ := h6'
    have hdl : s.data.length = 6 := hlen
    have hyy : tokYY s < 100 := by
      apply digitsToNat_two_lt_100
      · intro c hc
        exact List.all_eq_true.mp hdig c (List.mem_of_mem_take hc)
      · rw [List.length_take, hdl]
        decide
    have hyear : tokYear s = 2000 + tokYY s := by
      unfold tokYear
      rw [if_pos hyy]
    have hdm := daysInMonth_le_31 (2000 + tokYY s) (tokMM s)
    by_cases hgood : (1 ≤ tokMM s ∧ tokMM s ≤ 12 ∧ 1 ≤ tokDD s ∧
        tokDD s ≤ daysInMonth (2000 + tokYY s) (tokMM s))
    · have hgt : goodToken s = true := by
        unfold goodToken
        rw [h6, decide_eq_true hgood]
        rfl
      rw [hgt, if_pos (rfl : (true : Bool) = true)]
      obtain ⟨ha, hb, hc, hd⟩ := hgood
      rw [if_pos ⟨ha, hb, hc, by omega⟩]
      have hc2 : Date.valid ⟨tokYear s, tokMM s, tokDD s⟩ = true := by
        simp only [Date.valid, hyear, decide_eq_true_eq]
        exact ⟨by omega, by omega, ha, hb, hc, hd⟩
      rw [if_pos hc2]
      unfold tokenDate
      rw [hyear]
    · have hgf : goodToken s = false := by
        unfold goodToken
        rw [decide_eq_false hgood]
        exact Bool.and_false _
      have hfne : ¬((false : Bool) = true) := by simp
      rw [hgf, if_neg hfne]
      by_cases hc1 : (1 ≤ tokMM s ∧ tokMM s ≤ 12 ∧ 1 ≤ tokDD s ∧ tokDD s ≤ 31)
      · rw [if_pos hc1]
        have hc2 : Date.valid ⟨tokYear s, tokMM s, tokDD s⟩ = false := by
          simp only [Date.valid, hyear, decide_eq_false_iff_not]
          intro hv
          exact hgood ⟨hv.2.2.1, hv.2.2.2.1, hv.2.2.2.2.1, hv.2.2.2.2.2⟩
        rw [if_neg (by simp [hc2])]
      · rw [if_neg hc1]
  · rw [if_neg h6]
    have hgf : goodToken s = false := by
      unfold goodToken
      rw [Bool.eq_false_iff.mpr h6]
      exact Bool.false_and _
    have hfne : ¬((false : Bool) = true) := by simp
    rw [hgf, if_neg hfne]


/-! ## Fetcher (`fetch_wod_html`) -/

/-- Outcome of one HTTP attempt as observed by `fetch_wod_html`: a response
body (a response that passed `raise_for_status`), a timeout, or another
transport-level error. -/
inductive Outcome where
  | success (body : String)
  | timeout
  | reqError
deriving Repr, DecidableEq

/-- The exception `fetch_wod_html` raises after exhausting retries; its
message carries the attempt count (`f"Failed after {max_retries} retries"`). -/
structure FetchFailure where
  attempts : Nat
deriving Repr, DecidableEq

/-- Trace of one run of `fetch_wod_html`: the returned body or the raised
error, the `time.sleep` durations issued in order, and the number of loop
iterations (attempts) performed. -/
structure FetchRun where
  result : Except FetchFailure String
  sleeps : List Nat
  attemptsMade : Nat

/-- The retry loop of `fetch_wod_html`, indexed by the current `attempt`
number and the number of loop iterations still available. On a successful
response the body length is compared against the fixed 1000-character
threshold; a short body is retried only while `attempt < max_retries - 1`,
and on the final attempt it is returned. Timeouts and request errors retry
with `time.sleep(delay * (attempt + 1))` while attempts remain. -/
def fetchAux (outcomes : Nat → Outcome) (max_retries delay : Nat) :
    Nat → Nat → FetchRun
  | _, 0 => ⟨.error ⟨max_retries⟩, [], 0⟩
  | attempt, remaining + 1 =>
    match outcomes attempt with
    | .success body =>
      if body.length < 1000 then
        if 0 < remaining then
          let r := fetchAux outcomes max_retries delay (attempt + 1) remaining
          ⟨r.result, delay * (attempt + 1) :: r.sleeps, r.attemptsMade + 1⟩
        else ⟨.ok body, [], 1⟩
      else ⟨.ok body, [], 1⟩
    | .timeout =>
      if 0 < remaining then
        let r := fetchAux outcomes max_retries delay (attempt + 1) remaining
        ⟨r.result, delay * (attempt + 1) :: r.sleeps, r.attemptsMade + 1⟩
      else ⟨.error ⟨max_retries⟩, [], 1⟩
    | .reqError =>
      if 0 < remaining then
        let r := fetchAux outcomes max_retries delay (attempt + 1) remaining
        ⟨r.result, delay * (attempt + 1) :: r.sleeps, r.attemptsMade + 1⟩
      else ⟨.error ⟨max_retries⟩, [], 1⟩

/-- `fetch_wod_html(max_retries, delay)` from `scraper.py`, run against an
environment `outcomes` giving the result of each attempt. The source's
default arguments are `max_retries = 3`, `delay = 1`. -/
def fetch_wod_html (outcomes : Nat → Outcome) (max_retries delay : Nat) :
    FetchRun :=
  fetchAux outcomes max_retries delay 0 max_retries

theorem fetchAux_step (outcomes : Nat → Outcome) (mr delay a n : Nat) :
    fetchAux outcomes mr delay a (n + 1) =
      match outcomes a with
      | .success body =>
        if body.length < 1000 then
          if 0 < n then
            ⟨(fetchAux outcomes mr delay (a + 1) n).result,
              delay * (a + 1) :: (fetchAux outcomes mr delay (a + 1) n).sleeps,
              (fetchAux outcomes mr delay (a + 1) n).attemptsMade + 1⟩
          else ⟨.ok body, [], 1⟩
        else ⟨.ok body, [], 1⟩
      | .timeout =>
        if 0 < n then
          ⟨(fetchAux outcomes mr delay (a + 1) n).result,
            delay * (a + 1) :: (fetchAux outcomes mr delay (a + 1) n).sleeps,
            (fetchAux outcomes mr delay (a + 1) n).attemptsMade + 1⟩
        else ⟨.error ⟨mr⟩, [], 1⟩
      | .reqError =>
        if 0 < n then
          ⟨(fetchAux outcomes mr delay (a + 1) n).result,
            delay * (a + 1) :: (fetchAux outcomes mr delay (a + 1) n).sleeps,
            (fetchAux outcomes mr delay (a + 1) n).attemptsMade + 1⟩
        else ⟨.error ⟨mr⟩, [], 1⟩ := rfl

theorem fetchAux_timeout_step (mr delay a n : Nat) :
    fetchAux (fun _ => Outcome.timeout) mr delay a (n + 1) =
      if 0 < n then
        ⟨(fetchAux (fun _ => Outcome.timeout) mr delay (a + 1) n).result,
          delay * (a + 1) ::
            (fetchAux (fun _ => Outcome.timeout) mr delay (a + 1) n).sleeps,
          (fetchAux (fun _ => Outcome.timeout) mr delay (a + 1) n).attemptsMade + 1⟩
      else ⟨.error ⟨mr⟩, [], 1⟩ := by
  rw [fetchAux_step]

theorem fetchAux_success_step (outcomes : Nat → Outcome) (mr delay a n : Nat)
    (body : String) (hb : outcomes a = .success body) :
    fetchAux outcomes mr delay a (n + 1) =
      if body.length < 1000 then
        if 0 < n then
          ⟨(fetchAux outcomes mr delay (a + 1) n).result,
            delay * (a + 1) :: (fetchAux outcomes mr delay (a + 1) n).sleeps,
            (fetchAux outcomes mr delay (a + 1) n).attemptsMade + 1⟩
        else ⟨.ok body, [], 1⟩
      else ⟨.ok body, [], 1⟩ := by
  rw [fetchAux_step, hb]

theorem fetchAux_all_timeout (mr delay : Nat) :
    ∀ r a, fetchAux (fun _ => Outcome.timeout) mr delay a r =
      ⟨.error ⟨mr⟩, (List.range (r - 1)).map (fun i => delay * (a + i + 1)), r⟩ := by
  intro r
  induction r with
  | zero => intro a; rfl
  | succ n ih =>
    intro a
    cases n with
    | zero => rfl
    | succ m =>
      rw [fetchAux_timeout_step, if_pos (Nat.succ_pos m), ih (a + 1)]
      refine congrArg (FetchRun.mk _ · _) ?_
      have h1 : m + 1 + 1 - 1 = m + 1 := rfl
      have h2 : m + 1 - 1 = m := rfl
      rw [h1, h2, List.range_succ_eq_map, List.map_cons, List.map_map]
      refine congrArg₂ List.cons (by ring_nf) ?_
      apply List.map_congr_left
      intro i _
      simp only [Function.comp, Nat.succ_eq_add_one]
      ring

/-- C7: against an endpoint that always times out, the fetcher performs
exactly `max_retries` attempts, raises the retry-count error, and the sleeps
between consecutive attempts are `delay * attemptNumber` for attempt numbers
`1, 2, ...`, a strictly increasing sequence. -/
theorem fetch_timeout_backoff (mr delay : Nat) (hd : 1 ≤ delay) :
    (fetch_wod_html (fun _ => Outcome.timeout) mr delay).attemptsMade = mr ∧
    (fetch_wod_html (fun _ => Outcome.timeout) mr delay).result = .error ⟨mr⟩ ∧
    (fetch_wod_html (fun _ => Outcome.timeout) mr delay).sleeps =
      (List.range (mr - 1)).map (fun i => delay * (i + 1)) ∧
    List.Pairwise (· < ·) (fetch_wod_html (fun _ => Outcome.timeout) mr delay).sleeps := by
  unfold fetch_wod_html
  rw [fetchAux_all_timeout mr delay mr 0]
  refine ⟨rfl, rfl, ?_, ?_⟩
  · apply List.map_congr_left
    intro i _
    ring_nf
  · refine List.Pairwise.map _ ?_ (List.pairwise_lt_range _)
    intro a b hab
    exact mul_lt_mul_of_pos_left (by omega) (by omega)

theorem fetchAux_timeoutAt_step (outcomes : Nat → Outcome)
    (mr delay a n : Nat) (hb : outcomes a = .timeout) :
    fetchAux outcomes mr delay a (n + 1) =
      if 0 < n then
        ⟨(fetchAux outcomes mr delay (a + 1) n).result,
          delay * (a + 1) :: (fetchAux outcomes mr delay (a + 1) n).sleeps,
          (fetchAux outcomes mr delay (a + 1) n).attemptsMade + 1⟩
      else ⟨.error ⟨mr⟩, [], 1⟩ := by
  rw [fetchAux_step, hb]

theorem fetchAux_reqErrorAt_step (outcomes : Nat → Outcome)
    (mr delay a n : Nat) (hb : outcomes a = .reqError) :
    fetchAux outcomes mr delay a (n + 1) =
      if 0 < n then
        ⟨(fetchAux outcomes mr delay (a + 1) n).result,
          delay * (a + 1) :: (fetchAux outcomes mr delay (a + 1) n).sleeps,
          (fetchAux outcomes mr delay (a + 1) n).attemptsMade + 1⟩
      else ⟨.error ⟨mr⟩, [], 1⟩ := by
  rw [fetchAux_step, hb]

theorem fetchAux_retry_succ (outcomes : Nat → Outcome) (mr delay a n : Nat)
    (b : String) (hb : outcomes a = .success b) (hlb : b.length < 1000)
    (hrem : 0 < n) :
    fetchAux outcomes mr delay a (n + 1) =
      ⟨(fetchAux outcomes mr delay (a + 1) n).result,
        delay * (a + 1) :: (fetchAux outcomes mr delay (a + 1) n).sleeps,
        (fetchAux outcomes mr delay (a + 1) n).attemptsMade + 1⟩ := by
  rw [fetchAux_success_step outcomes mr delay a n b hb, if_pos hlb, if_pos hrem]

theorem fetchAux_last_succ_short (outcomes : Nat → Outcome)
    (mr delay a n : Nat) (b : String) (hb : outcomes a = .success b)
    (hlb : b.length < 1000) (hrem : ¬0 < n) :
    fetchAux outcomes mr delay a (n + 1) = ⟨.ok b, [], 1⟩ := by
  rw [fetchAux_success_step outcomes mr delay a n b hb, if_pos hlb, if_neg hrem]

theorem fetchAux_succ_long (outcomes : Nat → Outcome) (mr delay a n : Nat)
    (b : String) (hb : outcomes a = .success b) (hlb : ¬b.length < 1000) :
    fetchAux outcomes mr delay a (n + 1) = ⟨.ok b, [], 1⟩ := by
  rw [fetchAux_success_step outcomes mr delay a n b hb, if_neg hlb]

theorem fetchAux_retry_timeout (outcomes : Nat → Outcome)
    (mr delay a n : Nat) (hb : outcomes a = .timeout) (hrem : 0 < n) :
    fetchAux outcomes mr delay a (n + 1) =
      ⟨(fetchAux outcomes mr delay (a + 1) n).result,
        delay * (a + 1) :: (fetchAux outcomes mr delay (a + 1) n).sleeps,
        (fetchAux outcomes mr delay (a + 1) n).attemptsMade + 1⟩ := by
  rw [fetchAux_timeoutAt_step outcomes mr delay a n hb, if_pos hrem]

theorem fetchAux_last_timeout (outcomes : Nat → Outcome)
    (mr delay a n : Nat) (hb : outcomes a = .timeout) (hrem : ¬0 < n) :
    fetchAux outcomes mr delay a (n + 1) = ⟨.error ⟨mr⟩, [], 1⟩ := by
  rw [fetchAux_timeoutAt_step outcomes mr delay a n hb, if_neg hrem]

theorem fetchAux_retry_reqError (outcomes : Nat → Outcome)
    (mr delay a n : Nat) (hb : outcomes a = .reqError) (hrem : 0 < n) :
    fetchAux outcomes mr delay a (n + 1) =
      ⟨(fetchAux outcomes mr delay (a + 1) n).result,
        delay * (a + 1) :: (fetchAux outcomes mr delay (a + 1) n).sleeps,
        (fetchAux outcomes mr delay (a + 1) n).attemptsMade + 1⟩ := by
  rw [fetchAux_reqErrorAt_step outcomes mr delay a n hb, if_pos hrem]

theorem fetchAux_last_reqError (outcomes : Nat → Outcome)
    (mr delay a n : Nat) (hb : outcomes a = .reqError) (hrem : ¬0 < n) :
    fetchAux outcomes mr delay a (n + 1) = ⟨.error ⟨mr⟩, [], 1⟩ := by
  rw [fetchAux_reqErrorAt_step outcomes mr delay a n hb, if_neg hrem]

theorem fetchAux_ok_short (outcomes : Nat → Outcome) (mr delay : Nat) :
    ∀ r a body, (fetchAux outcomes mr delay a r).result = Except.ok body →
      body.length < 1000 →
      (fetchAux outcomes mr delay a r).attemptsMade = r ∧
        outcomes (a + r - 1) = .success body := by
  intro r
  induction r with
  | zero =>
    intro a body hok _
    cases hok
  | succ n ih =>
    intro a body hok hshort
    cases houtcome : outcomes a with
    | success b =>
      by_cases hlb : b.length < 1000
      · by_cases hrem : 0 < n
        · rw [fetchAux_retry_succ outcomes mr delay a n b houtcome hlb hrem]
            at hok ⊢
          obtain ⟨hatt, hout⟩ := ih (a + 1) body hok hshort
          refine ⟨?_, ?_⟩
          · show (fetchAux outcomes mr delay (a + 1) n).attemptsMade + 1 = n + 1
            rw [hatt]
          · have hidx : a + 1 + n - 1 = a + (n + 1) - 1 := by omega
            rw [← hidx]
            exact hout
        · rw [fetchAux_last_succ_short outcomes mr delay a n b houtcome hlb hrem]
            at hok ⊢
          have hb : b = body := by
            have h2 : Except.ok (ε := FetchFailure) b = Except.ok body := hok
            injection h2
          subst hb
          have hn : n = 0 := by omega
          subst hn
          refine ⟨rfl, ?_⟩
          have hidx : a + (0 + 1) - 1 = a := by omega
          rw [hidx]
          exact houtcome
      · rw [fetchAux_succ_long outcomes mr delay a n b houtcome hlb] at hok
        have hb : b = body := by
          have h2 : Except.ok (ε := FetchFailure) b = Except.ok body := hok
          injection h2
        subst hb
        exact absurd hshort hlb
    | timeout =>
      by_cases hrem : 0 < n
      · rw [fetchAux_retry_timeout outcomes mr delay a n houtcome hrem] at hok ⊢
        obtain ⟨hatt, hout⟩ := ih (a + 1) body hok hshort
        refine ⟨?_, ?_⟩
        · show (fetchAux outcomes mr delay (a + 1) n).attemptsMade + 1 = n + 1
          rw [hatt]
        · have hidx : a + 1 + n - 1 = a + (n + 1) - 1 := by omega
          rw [← hidx]
          exact hout
      · rw [fetchAux_last_timeout outcomes mr delay a n houtcome hrem] at hok
        cases hok
    | reqError =>
      by_cases hrem : 0 < n
      · rw [fetchAux_retry_reqError outcomes mr delay a n houtcome hrem] at hok ⊢
        obtain ⟨hatt, hout⟩ := ih (a + 1) body hok hshort
        refine ⟨?_, ?_⟩
        · show (fetchAux outcomes mr delay (a + 1) n).attemptsMade + 1 = n + 1
          rw [hatt]
        · have hidx : a + 1 + n - 1 = a + (n + 1) - 1 := by omega
          rw [← hidx]
          exact hout
      · rw [fetchAux_last_reqError outcomes mr delay a n houtcome hrem] at hok
        cases hok

theorem fetchAux_reach_last (outcomes : Nat → Outcome) (mr delay : Nat) :
    ∀ r a, 1 ≤ r →
      (∀ i, a ≤ i → i < a + r - 1 →
        ∀ b, outcomes i = .success b → b.length < 1000) →
      ∀ body, outcomes (a + r - 1) = .success body →
        (fetchAux outcomes mr delay a r).result = .ok body ∧
          (fetchAux outcomes mr delay a r).attemptsMade = r := by
  intro r
  induction r with
  | zero =>
    intro a h
    omega
  | succ n ih =>
    intro a _ hearlier body hlast
    cases n with
    | zero =>
      have hidx : a + (0 + 1) - 1 = a := by omega
      rw [hidx] at hlast
      by_cases hlb : body.length < 1000
      · rw [fetchAux_last_succ_short outcomes mr delay a 0 body hlast hlb (by omega)]
        exact ⟨rfl, rfl⟩
      · rw [fetchAux_succ_long outcomes mr delay a 0 body hlast hlb]
        exact ⟨rfl, rfl⟩
    | succ m =>
      have hidx : a + 1 + (m + 1) - 1 = a + (m + 1 + 1) - 1 := by omega
      have hrec := ih (a + 1) (by omega)
        (fun i h1 h2 b2 hb2 => hearlier i (by omega) (by omega) b2 hb2)
        body (by rw [hidx]; exact hlast)
      obtain ⟨hres, hatt⟩ := hrec
      cases houtcome : outcomes a with
      | success b =>
        have hlb : b.length < 1000 :=
          hearlier a (le_refl a) (by omega) b houtcome
        rw [fetchAux_retry_succ outcomes mr delay a (m + 1) b houtcome hlb
          (Nat.succ_pos m)]
        refine ⟨hres, ?_⟩
        show (fetchAux outcomes mr delay (a + 1) (m + 1)).attemptsMade + 1 =
          m + 1 + 1
        rw [hatt]
      | timeout =>
        rw [fetchAux_retry_timeout outcomes mr delay a (m + 1) houtcome
          (Nat.succ_pos m)]
        refine ⟨hres, ?_⟩
        show (fetchAux outcomes mr delay (a + 1) (m + 1)).attemptsMade + 1 =
          m + 1 + 1
        rw [hatt]
      | reqError =>
        rw [fetchAux_retry_reqError outcomes mr delay a (m + 1) houtcome
          (Nat.succ_pos m)]
        refine ⟨hres, ?_⟩
        show (fetchAux outcomes mr delay (a + 1) (m + 1)).attemptsMade + 1 =
          m + 1 + 1
        rw [hatt]

theorem fetchAux_error_source (outcomes : Nat → Outcome) (mr delay : Nat) :
    ∀ r a e, 1 ≤ r →
      (fetchAux outcomes mr delay a r).result = .error e →
      e = ⟨mr⟩ ∧ (fetchAux outcomes mr delay a r).attemptsMade = r ∧
        (outcomes (a + r - 1) = .timeout ∨ outcomes (a + r - 1) = .reqError) := by
  intro r
  induction r with
  | zero =>
    intro a e h
    omega
  | succ n ih =>
    intro a e _ herr
    cases n with
    | zero =>
      have hidx : a + (0 + 1) - 1 = a := by omega
      rw [hidx]
      cases houtcome : outcomes a with
      | success b =>
        by_cases hlb : b.length < 1000
        · rw [fetchAux_last_succ_short outcomes mr delay a 0 b houtcome hlb
            (by omega)] at herr
          cases herr
        · rw [fetchAux_succ_long outcomes mr delay a 0 b houtcome hlb] at herr
          cases herr
      | timeout =>
        rw [fetchAux_last_timeout outcomes mr delay a 0 houtcome (by omega)]
          at herr ⊢
        have h2 : Except.error (α := String) (⟨mr⟩ : FetchFailure) =
          Except.error e := herr
        injection h2 with h3
        exact ⟨h3.symm, rfl, Or.inl rfl⟩
      | reqError =>
        rw [fetchAux_last_reqError outcomes mr delay a 0 houtcome (by omega)]
          at herr ⊢
        have h2 : Except.error (α := String) (⟨mr⟩ : FetchFailure) =
          Except.error e := herr
        injection h2 with h3
        exact ⟨h3.symm, rfl, Or.inr rfl⟩
    | succ m =>
      have hidx : a + 1 + (m + 1) - 1 = a + (m + 1 + 1) - 1 := by omega
      cases houtcome : outcomes a with
      | success b =>
        by_cases hlb : b.length < 1000
        · rw [fetchAux_retry_succ outcomes mr delay a (m + 1) b houtcome hlb
            (Nat.succ_pos m)] at herr ⊢
          obtain ⟨he, hatt, hsrc⟩ := ih (a + 1) e (by omega) herr
          refine ⟨he, ?_, ?_⟩
          · show (fetchAux outcomes mr delay (a + 1) (m + 1)).attemptsMade + 1 =
              m + 1 + 1
            rw [hatt]
          · rw [← hidx]
            exact hsrc
        · rw [fetchAux_succ_long outcomes mr delay a (m + 1) b houtcome hlb]
            at herr
          cases herr
      | timeout =>
        rw [fetchAux_retry_timeout outcomes mr delay a (m + 1) houtcome
          (Nat.succ_pos m)] at herr ⊢
        obtain ⟨he, hatt, hsrc⟩ := ih (a + 1) e (by omega) herr
        refine ⟨he, ?_, ?_⟩
        · show (fetchAux outcomes mr delay (a + 1) (m + 1)).attemptsMade + 1 =
            m + 1 + 1
          rw [hatt]
        · rw [← hidx]
          exact hsrc
      | reqError =>
        rw [fetchAux_retry_reqError outcomes mr delay a (m + 1) houtcome
          (Nat.succ_pos m)] at herr ⊢
        obtain ⟨he, hatt, hsrc⟩ := ih (a + 1) e (by omega) herr
        refine ⟨he, ?_, ?_⟩
        · show (fetchAux outcomes mr delay (a + 1) (m + 1)).attemptsMade + 1 =
            m + 1 + 1
          rw [hatt]
        · rw [← hidx]
          exact hsrc

/-- C3 fails on the code at this input: with every attempt returning a
successful response whose body is shorter than 1000 characters, the fetcher
performs all three default attempts and then returns the short body as a
success instead of raising the retry-count error. -/
theorem fetch_short_body_cex :
    (fetch_wod_html (fun _ => Outcome.success "tiny") 3 1).attemptsMade = 3 ∧
    (fetch_wod_html (fun _ => Outcome.success "tiny") 3 1).result =
      Except.ok "tiny" :=
  ⟨rfl, rfl⟩

/-- C3 amended: a successful response with a short body is retried while
attempts remain and is never returned from a non-final attempt — a short
body returned as a success is always the final attempt's; when no earlier
attempt returns, a short successful body on the final attempt is returned as
a success; and the fetcher fails with the `FetchError` carrying the attempt
count only when the final attempt itself fails with a timeout or
transport-level error. -/
theorem fetch_short_body_amended (outcomes : Nat → Outcome) (mr delay : Nat)
    (hmr : 1 ≤ mr) :
    (∀ body, (fetch_wod_html outcomes mr delay).result = .ok body →
      body.length < 1000 →
      (fetch_wod_html outcomes mr delay).attemptsMade = mr ∧
        outcomes (mr - 1) = .success body) ∧
    ((∀ i, i < mr - 1 → ∀ b, outcomes i = .success b → b.length < 1000) →
      ∀ body, outcomes (mr - 1) = .success body →
        (fetch_wod_html outcomes mr delay).result = .ok body ∧
          (fetch_wod_html outcomes mr delay).attemptsMade = mr) ∧
    (∀ e, (fetch_wod_html outcomes mr delay).result = .error e →
      e = ⟨mr⟩ ∧ (fetch_wod_html outcomes mr delay).attemptsMade = mr ∧
        (outcomes (mr - 1) = .timeout ∨ outcomes (mr - 1) = .reqError)) := by
  have hidx : 0 + mr - 1 = mr - 1 := by omega
  refine ⟨?_, ?_, ?_⟩
  · intro body hok hshort
    have h := fetchAux_ok_short outcomes mr delay mr 0 body hok hshort
    rw [hidx] at h
    exact h
  · intro hearlier body hlast
    exact fetchAux_reach_last outcomes mr delay mr 0 hmr
      (fun i h1 h2 b hb => hearlier i (by omega) b hb)
      body (by rw [hidx]; exact hlast)
  · intro e herr
    have h := fetchAux_error_source outcomes mr delay mr 0 e hmr herr
    rw [hidx] at h
    exact h

theorem fetch_short_body_amended_witness :
    (∀ body, (fetch_wod_html (fun i => if i = 0 then Outcome.timeout
        else Outcome.success "x") 2 5).result = .ok body →
      body.length < 1000 →
      (fetch_wod_html (fun i => if i = 0 then Outcome.timeout
        else Outcome.success "x") 2 5).attemptsMade = 2 ∧
        (fun i => if i = 0 then Outcome.timeout else Outcome.success "x")
          (2 - 1) = Outcome.success body) ∧
    ((∀ i, i < 2 - 1 → ∀ b,
        (fun i => if i = 0 then Outcome.timeout else Outcome.success "x") i =
          Outcome.success b → b.length < 1000) →
      ∀ body, (fun i => if i = 0 then Outcome.timeout
          else Outcome.success "x") (2 - 1) = Outcome.success body →
        (fetch_wod_html (fun i => if i = 0 then Outcome.timeout
          else Outcome.success "x") 2 5).result = .ok body ∧
          (fetch_wod_html (fun i => if i = 0 then Outcome.timeout
            else Outcome.success "x") 2 5).attemptsMade = 2) ∧
    (∀ e, (fetch_wod_html (fun i => if i = 0 then Outcome.timeout
        else Outcome.success "x") 2 5).result = .error e →
      e = ⟨2⟩ ∧ (fetch_wod_html (fun i => if i = 0 then Outcome.timeout
        else Outcome.success "x") 2 5).attemptsMade = 2 ∧
        ((fun i => if i = 0 then Outcome.timeout else Outcome.success "x")
            (2 - 1) = Outcome.timeout ∨
          (fun i => if i = 0 then Outcome.timeout else Outcome.success "x")
            (2 - 1) = Outcome.reqError)) :=
  fetch_short_body_amended
    (fun i => if i = 0 then Outcome.timeout else Outcome.success "x") 2 5
    (by omega)

theorem fetch_timeout_backoff_witness :
    (fetch_wod_html (fun _ => Outcome.timeout) 3 1).attemptsMade = 3 ∧
    (fetch_wod_html (fun _ => Outcome.timeout) 3 1).result = .error ⟨3⟩ ∧
    (fetch_wod_html (fun _ => Outcome.timeout) 3 1).sleeps =
      (List.range (3 - 1)).map (fun i => 1 * (i + 1)) ∧
    List.Pairwise (· < ·) (fetch_wod_html (fun _ => Outcome.timeout) 3 1).sleeps :=
  fetch_timeout_backoff 3 1 (by omega)

/-! ## The parsed-markup model

`parse_wod` operates on the tree BeautifulSoup builds from the HTML string.
We embed that tree directly: an element with a tag name and children, or a
text node (`NavigableString`). The soup object itself is the root element
(tag `[document]`). -/

/-- A node of the parsed document. -/
inductive Node where
  | elem (tag : String) (children : List Node)
  | text (s : String)
deriving Repr

/-- Children of a node (`text` nodes have none). -/
def childrenOf : Node → List Node
  | .elem _ cs => cs
  | .text _ => []

mutual

/-- The raw string segments of a subtree, in document order: the flat list of
`NavigableString` contents that `get_text` concatenates. -/
def rawSegs : Node → List (List Char)
  | .text s => [s.data]
  | .elem _ cs => rawSegsList cs

/-- `rawSegs` over a list of sibling nodes. -/
def rawSegsList : List Node → List (List Char)
  | [] => []
  | c :: cs => rawSegs c ++ rawSegsList cs

end

/-- The segments `get_text(strip=True)` keeps: each raw segment stripped,
whitespace-only segments dropped. -/
def strippedSegs (n : Node) : List (List Char) :=
  ((rawSegs n).map stripChars).filter (fun l => !l.isEmpty)

/-- Join segments with no separator: `get_text(strip=True)`. -/
def getTextStrip (n : Node) : String :=
  String.mk (strippedSegs n).flatten

/-- Join a list of segments with a newline between consecutive segments. -/
def joinNL : List (List Char) → List Char
  | [] => []
  | [x] => x
  | x :: y :: r => x ++ '\n' :: joinNL (y :: r)

/-- `get_text(separator='\n', strip=True)`. -/
def getTextSep (n : Node) : String :=
  String.mk (joinNL (strippedSegs n))

/-- `"\n".join(parts)` on strings. -/
def joinStrNL (parts : List String) : String :=
  String.mk (joinNL (parts.map String.data))

mutual

/-- All elements of a subtree whose tag is in `tags`, in document order
(an element before its descendants): `soup.find_all([...])`. -/
def findAllTags (tags : List String) : Node → List Node
  | .text _ => []
  | .elem t cs =>
    (if t ∈ tags then [Node.elem t cs] else []) ++ findAllTagsList tags cs

/-- `findAllTags` over a list of sibling nodes. -/
def findAllTagsList (tags : List String) : List Node → List Node
  | [] => []
  | c :: cs => findAllTags tags c ++ findAllTagsList tags cs

end

/-- BeautifulSoup `Tag.string`: the single string of a tag that has exactly
one child, recursing through single-child tags; `None` otherwise. -/
def nodeString : Node → Option String
  | .text s => some s
  | .elem _ [c] => nodeString c
  | .elem _ _ => none

mutual

/-- Text-node contexts below a parent: for every `NavigableString` `s` among
`children` (and their descendants), the pair of `s` and the forward walk list
starting at its parent followed by the parent's subsequent siblings
(`parent`, `parent.next_sibling`, ...). The head of `pw` is the parent of the
listed children. -/
def ctxChildren : List Node → List Node → List (String × List Node)
  | _, [] => []
  | pw, .text s :: rest => (s, pw) :: ctxChildren pw rest
  | pw, .elem t cs :: rest => ctxElem (.elem t cs) rest ++ ctxChildren pw rest

/-- Contexts of the text nodes inside one element, given the element's
subsequent siblings. -/
def ctxElem : Node → List Node → List (String × List Node)
  | .elem t cs, sibs => ctxChildren (.elem t cs :: sibs) cs
  | .text _, _ => []

end

/-- All text-node contexts of the document, in document order: the list
`soup.find_all(string=...)` filters. -/
def docContexts (root : Node) : List (String × List Node) :=
  ctxChildren [root] (childrenOf root)


/-! ## ContentLocator, DayClassifier, ResultAssembler (`parse_wod`) -/

/-- The fixed workout-indicator phrases of `parse_wod`. -/
def workout_patterns : List String :=
  ["For time:", "AMRAP", "Rest Day", "Recovery Day", "Active Recovery",
   "rounds for time", "rounds of:", "EMOM", "Tabata",
   "Every minute on the minute", "As many rounds as possible",
   "As many reps as possible", "Death by", "For load:", "Heavy single",
   "Work up to", "Find your"]

/-- `any(pattern.lower() in text.lower() for pattern in workout_patterns)`. -/
def matchesAny (t : String) : Bool :=
  workout_patterns.any (fun p => pyContains (lowerStr t) (lowerStr p))

/-- The candidate text the walk and the fallback scan append: the node's
newline-separated text when strictly longer than its plain stripped text,
else the plain stripped text. -/
def bestText (n : Node) : String :=
  if (getTextSep n).length > (getTextStrip n).length then getTextSep n
  else getTextStrip n

/-- The `while current and len(content_parts) < 10` walk of `parse_wod`:
walks the node list, appends `bestText` of the first node whose stripped text
is nonempty and matches a workout pattern, then stops. Also returns the
number of nodes examined. -/
def whileWalkC : List Node → List String → Nat → List String × Nat
  | [], parts, vis => (parts, vis)
  | cur :: rest, parts, vis =>
    if parts.length < 10 then
      if getTextStrip cur ≠ "" ∧ matchesAny (getTextStrip cur) = true then
        (parts ++ [bestText cur], vis + 1)
      else whileWalkC rest parts (vis + 1)
    else (parts, vis)

/-- The `for section in workout_sections` loop of strategy 1: the first
matching text node whose walk collects content provides the workout text. -/
def tryContexts : List (String × List Node) → String
  | [] => ""
  | (s, walk) :: rest =>
    if s ≠ "" ∧ matchesAny s = true then
      if (whileWalkC walk [] 0).1 ≠ [] then joinStrNL (whileWalkC walk [] 0).1
      else tryContexts rest
    else tryContexts rest

/-- Strategy 1 of the workout-text search: keyword-anchored walk from the
first matching text node. -/
def strategy1 (root : Node) : String := tryContexts (docContexts root)

/-- Strategy 2: fallback scan of `p`/`div`/`section`/`article` elements for
the same keyword set. -/
def strategy2 (root : Node) : String :=
  match (findAllTags ["p", "div", "section", "article"] root).find?
      (fun e => matchesAny (getTextStrip e)) with
  | some e => bestText e
  | none => ""

/-- The workout content `parse_wod` settles on. -/
def workoutContent (root : Node) : String :=
  if strategy1 root ≠ "" then strategy1 root else strategy2 root

/-- The rest-day patterns of `parse_wod` (note the bare `"recovery"`). -/
def rest_patterns : List String :=
  ["rest day", "no workout", "recovery day", "active recovery",
   "take a rest", "day off", "recovery", "mobility day"]

/-- The short-text rest words of the length-gated heuristic. -/
def rest_words : List String := ["rest", "recovery", "off"]

/-- The rest-day classification of `parse_wod` (its lines 108–117). -/
def classify (workout_content : String) : Bool :=
  let rest_day :=
    if workout_content ≠ "" then
      rest_patterns.any (fun p => pyContains (lowerStr workout_content) p)
    else false
  if rest_day = false ∧ workout_content ≠ "" ∧
      (pyStrip workout_content).length < 50 then
    rest_words.any (fun w => pyContains (lowerStr workout_content) w)
  else rest_day

/-- The scaling-indicator phrases of `parse_wod`. -/
def scaled_patterns : List String :=
  ["scaled", "beginner", "intermediate", "modified", "scaling", "substitute"]

/-- The workout-domain words required of a scaled candidate. -/
def workout_words : List String :=
  ["rounds", "reps", "time", "weight", "distance", "substitute", "modify"]

/-- One step of the scaled-content accumulation over a candidate element. -/
def scaledStep (acc : String) (e : Node) : String :=
  if scaled_patterns.any
      (fun p => pyContains (lowerStr (getTextStrip e)) (lowerStr p)) then
    if workout_words.any
        (fun w => pyContains (lowerStr (getTextStrip e)) w) then
      if (getTextStrip e).length > 20 then acc ++ "\n" ++ getTextStrip e
      else acc
    else acc
  else acc

/-- The scaled-content scan over `p`/`div`/`section`/`li` elements,
concatenating every qualifying candidate. -/
def scaledAccum (root : Node) : String :=
  (findAllTags ["p", "div", "section", "li"] root).foldl scaledStep ""

/-- The date-heading filter:
`lambda text: text and len(text) == 6 and text.isdigit()` applied to the
tag's `.string`. -/
def isDateHeading (n : Node) : Bool :=
  match nodeString n with
  | some s => decide (s ≠ "") && (s.length == 6) && s.data.all Char.isDigit
  | none => false

/-- `soup.find_all(['h1', 'h2'], string=...)` of `parse_wod`. -/
def dateCandidates (root : Node) : List Node :=
  (findAllTags ["h1", "h2"] root).filter isDateHeading

/-- The raw date token `parse_wod` extracts. -/
def dateStr (root : Node) : String :=
  match dateCandidates root with
  | n :: _ => getTextStrip n
  | [] => "Unknown Date"

/-- The structured record `parse_wod` returns. -/
structure WodRecord where
  date : String
  formatted_date : String
  is_rest_day : Bool
  workout : String
  scaled_options : Option String
  raw_url : String
deriving Repr, DecidableEq

/-- The configured page URL (`config.py` default). -/
def CROSSFIT_URL : String := "https://www.crossfit.com/wod"

/-- `parse_wod` from `scraper.py`, over the parsed tree, with the current
date passed explicitly. -/
def parse_wod (root : Node) (today : Date) : WodRecord :=
  { date := dateStr root
    formatted_date := format_date (dateStr root) today
    is_rest_day := classify (workoutContent root)
    workout :=
      if workoutContent root ≠ "" then pyStrip (workoutContent root)
      else "Workout details not found"
    scaled_options :=
      if scaledAccum root ≠ "" then some (pyStrip (scaledAccum root))
      else none
    raw_url := CROSSFIT_URL }

/-- The record built by the `except` branch of `parse_wod` when some stage
raises with message `e`. -/
def parseErrorRecord (e : String) (today : Date) : WodRecord :=
  { date := "Error"
    formatted_date := todayStr today
    is_rest_day := false
    workout := "Error parsing workout: " ++ e
    scaled_options := none
    raw_url := CROSSFIT_URL }

/-- The fallback record `get_todays_wod` returns when any stage raises. -/
def fallbackRecord (today : Date) : WodRecord :=
  { date := "Error"
    formatted_date := todayStr today
    is_rest_day := false
    workout := "Unable to fetch today's WOD. Try this fallback: 5 rounds of 400m run, 20 air squats, 10 push-ups."
    scaled_options := some "Scaled: 3 rounds of 200m walk, 15 air squats, 5 knee push-ups."
    raw_url := CROSSFIT_URL }

/-- `get_todays_wod` from `scraper.py`: fetch with the default arguments,
parse on success (through the HTML parser `parseHtml`), and return the
fallback record when the fetch raises. `parse_wod` itself never raises. -/
def get_todays_wod (parseHtml : String → Node) (outcomes : Nat → Outcome)
    (today : Date) : WodRecord :=
  match (fetch_wod_html outcomes 3 1).result with
  | .ok html => parse_wod (parseHtml html) today
  | .error _ => fallbackRecord today

/-! ## DayClassifier claims -/

/-- Rule 1 of the claim's classifier: the seven fixed rest-indicator phrases
(without the bare word "recovery"). -/
def specRestPhrases : List String :=
  ["rest day", "no workout", "recovery day", "active recovery", "day off",
   "mobility day", "take a rest"]

/-- `classify` exactly as the claim states it: rule 1 over the seven phrases;
otherwise the length-gated rule 2 over the narrow word set. -/
def specClassify (t : String) : Bool :=
  specRestPhrases.any (fun p => pyContains (lowerStr t) p) ||
    (!specRestPhrases.any (fun p => pyContains (lowerStr t) p) &&
      decide ((pyStrip t).length < 50) &&
      rest_words.any (fun w => pyContains (lowerStr t) w))

/-- C4 fails on the code at this input: a 72-character workout text that
contains the word "recovery" but none of the claim's rule-1 phrases is
classified as a rest day by the code (whose pattern list also holds the bare
"recovery"), while the claimed classifier says it is not a rest day. -/
theorem classify_long_recovery_cex :
    classify
      "For load: heavy back squats then an easy recovery jog for twenty minutes"
        = true ∧
    specClassify
      "For load: heavy back squats then an easy recovery jog for twenty minutes"
        = false ∧
    50 ≤ (pyStrip
      "For load: heavy back squats then an easy recovery jog for twenty minutes").length := by
  decide

/-- C4 amended: `classify` returns true iff the text contains one of the
code's eight rest patterns — the claim's seven phrases plus the bare word
"recovery" — or, failing that, the trimmed text is under 50 characters and
contains one of "rest", "recovery", "off". Empty text is never a rest day. -/
theorem classify_amended (t : String) :
    classify t = true ↔
      (rest_patterns.any (fun p => pyContains (lowerStr t) p) = true ∨
        (rest_patterns.any (fun p => pyContains (lowerStr t) p) = false ∧
          (pyStrip t).length < 50 ∧
          rest_words.any (fun w => pyContains (lowerStr t) w) = true)) := by
  unfold classify
  by_cases ht : t = ""
  · subst ht
    rw [if_neg (not_not_intro rfl)]
    rw [if_neg (fun h => h.2.1 rfl)]
    decide
  · have hne : t ≠ "" := ht
    rw [if_pos hne]
    by_cases hr : rest_patterns.any (fun p => pyContains (lowerStr t) p) = true
    · rw [hr]
      rw [if_neg (show ¬((true : Bool) = false ∧ t ≠ "" ∧
        (pyStrip t).length < 50) by simp)]
      simp [hr]
    · have hrf : rest_patterns.any (fun p => pyContains (lowerStr t) p) = false :=
        Bool.eq_false_iff.mpr hr
      rw [hrf]
      by_cases hlen : (pyStrip t).length < 50
      · rw [if_pos ⟨rfl, hne, hlen⟩]
        simp [hrf, hlen]
      · rw [if_neg (fun h => hlen h.2.2)]
        simp [hrf, hlen]

/-! ## Concrete end-to-end documents -/

/-- The markup of C5 as a parsed tree: a heading `"251130"` and a paragraph
with a sibling paragraph inside one container, the shape of the repository's
own mock document. -/
def docC5 : Node :=
  .elem "[document]" [.elem "html" [.elem "body" [
    .elem "h1" [.text "251130"],
    .elem "div" [
      .elem "p" [.text "For time: 21-15-9 Pull-ups, Push-ups, Air squats"],
      .elem "p" [.text "Scaled: Assisted pull-ups, knee push-ups, air squats"]]]]]

/-- C5: on the heading-plus-two-paragraphs markup, `parse_wod` yields the
formatted date `2025-11-30`, not a rest day, a workout containing
"For time: 21-15-9 Pull-ups", and a present scaled field containing
"Assisted pull-ups". -/
theorem parse_wod_example_c5 :
    (parse_wod docC5 ⟨2025, 12, 1⟩).formatted_date = "2025-11-30" ∧
    (parse_wod docC5 ⟨2025, 12, 1⟩).is_rest_day = false ∧
    pyContains (parse_wod docC5 ⟨2025, 12, 1⟩).workout
      "For time: 21-15-9 Pull-ups" = true ∧
    (parse_wod docC5 ⟨2025, 12, 1⟩).scaled_options.isSome = true ∧
    pyContains ((parse_wod docC5 ⟨2025, 12, 1⟩).scaled_options.getD "")
      "Assisted pull-ups" = true := by
  decide

/-- C9: extraction is deterministic — `parse_wod` on equal markup and equal
current dates returns equal records in every field; the embedding takes no
other inputs. -/
theorem parse_wod_deterministic (r1 r2 : Node) (t1 t2 : Date)
    (hmarkup : r1 = r2) (hdate : t1 = t2) :
    parse_wod r1 t1 = parse_wod r2 t2 := by
  rw [hmarkup, hdate]

theorem parse_wod_deterministic_witness :
    parse_wod docC5 ⟨2025, 12, 1⟩ = parse_wod docC5 ⟨2025, 12, 1⟩ :=
  parse_wod_deterministic docC5 docC5 ⟨2025, 12, 1⟩ ⟨2025, 12, 1⟩ rfl rfl

/-- Number of positions of `hay` at which `sub` occurs. -/
def countOcc (hay sub : List Char) : Nat :=
  match hay with
  | [] => if startsWithCL sub [] then 1 else 0
  | c :: t => (if startsWithCL sub (c :: t) then 1 else 0) + countOcc t sub

/-- Markup where the container `div` and its descendant paragraph both pass
the scaling-keyword, workout-term, and length filters. -/
def docC10 : Node :=
  .elem "[document]" [.elem "body" [
    .elem "h1" [.text "251130"],
    .elem "div" [
      .elem "p" [.text "For time: 5 rounds of 10 push-ups and 20 squats"],
      .elem "p" [.text "Scaled: 3 rounds of 5 knee push-ups and 10 squats"]]]]

set_option maxRecDepth 8192 in
/-- C10: the scaled scan concatenates qualifying `p`/`div`/`section`/`li`
elements without deduplicating nested containers: here the descendant
paragraph's text occurs twice inside `scaled_options`, which also contains
the entire primary workout text. -/
theorem scaled_scan_duplicates :
    (parse_wod docC10 ⟨2025, 12, 1⟩).scaled_options.isSome = true ∧
    2 ≤ countOcc ((parse_wod docC10 ⟨2025, 12, 1⟩).scaled_options.getD "").data
        "Scaled: 3 rounds of 5 knee push-ups and 10 squats".data ∧
    pyContains ((parse_wod docC10 ⟨2025, 12, 1⟩).scaled_options.getD "")
      (parse_wod docC10 ⟨2025, 12, 1⟩).workout = true := by
  decide

/-! ## Record invariants (C2) -/

/-- The string has at least one non-whitespace character. -/
def HasInk (s : String) : Prop := ∃ c ∈ s.data, c.isWhitespace = false

/-- The record invariants claimed of `parse_wod`: a non-empty workout field,
a scaled field that is absent or non-empty, and a formatted date that renders
an actual valid calendar date. -/
def Complete (r : WodRecord) : Prop :=
  r.workout ≠ "" ∧ (∀ s, r.scaled_options = some s → s ≠ "") ∧
    ∃ d, d.valid = true ∧ r.formatted_date = renderDate d

theorem mem_dropWhile_of_mem (p : Char → Bool) (l : List Char) (c : Char)
    (hc : p c = false) (hm : c ∈ l) : c ∈ l.dropWhile p := by
  induction l with
  | nil => cases hm
  | cons h t ih =>
    rw [List.dropWhile_cons]
    by_cases hp : p h = true
    · rw [if_pos hp]
      rcases List.mem_cons.mp hm with he | ht2
      · subst he
        rw [hp] at hc
        cases hc
      · exact ih ht2
    · rw [if_neg hp]
      exact hm

theorem dropWhile_exists_not (p : Char → Bool) (l : List Char)
    (h : l.dropWhile p ≠ []) : ∃ c ∈ l.dropWhile p, p c = false := by
  induction l with
  | nil => simp at h
  | cons a t ih =>
    rw [List.dropWhile_cons] at h ⊢
    by_cases hp : p a = true
    · rw [if_pos hp] at h ⊢
      exact ih h
    · rw [if_neg hp] at h ⊢
      exact ⟨a, List.mem_cons_self a t, Bool.eq_false_iff.mpr hp⟩

theorem stripChars_ne_nil (l : List Char) (h : ∃ c ∈ l, ws c = false) :
    stripChars l ≠ [] := by
  obtain ⟨c, hm, hc⟩ := h
  unfold stripChars
  intro hnil
  have h1 : c ∈ l.dropWhile ws := mem_dropWhile_of_mem ws l c hc hm
  have h2 : c ∈ (l.dropWhile ws).reverse := List.mem_reverse.mpr h1
  have h3 : c ∈ ((l.dropWhile ws).reverse).dropWhile ws :=
    mem_dropWhile_of_mem ws _ c hc h2
  rw [List.reverse_eq_nil_iff] at hnil
  rw [hnil] at h3
  cases h3

theorem stripChars_has_ink (l : List Char) (h : stripChars l ≠ []) :
    ∃ c ∈ stripChars l, ws c = false := by
  unfold stripChars at *
  have h2 : ((l.dropWhile ws).reverse).dropWhile ws ≠ [] := by
    intro he
    rw [he] at h
    exact h rfl
  obtain ⟨c, hm, hc⟩ := dropWhile_exists_not ws _ h2
  exact ⟨c, List.mem_reverse.mpr hm, hc⟩

theorem strippedSegs_mem_has_ink (n : Node) (seg : List Char)
    (h : seg ∈ strippedSegs n) : ∃ c ∈ seg, ws c = false := by
  unfold strippedSegs at h
  have hne := List.of_mem_filter h
  have h2 := List.mem_of_mem_filter h
  obtain ⟨raw, _, he⟩ := List.mem_map.mp h2
  subst he
  apply stripChars_has_ink
  simpa using hne

theorem getTextStrip_ink (n : Node) (h : getTextStrip n ≠ "") :
    HasInk (getTextStrip n) := by
  unfold getTextStrip at *
  have hfl : (strippedSegs n).flatten ≠ [] := by
    intro he
    exact h (congrArg String.mk he)
  obtain ⟨c0, hc0⟩ := List.exists_mem_of_ne_nil _ hfl
  obtain ⟨seg, hseg, hcseg⟩ := List.mem_flatten.mp hc0
  obtain ⟨c, hcm, hcw⟩ := strippedSegs_mem_has_ink n seg hseg
  exact ⟨c, List.mem_flatten.mpr ⟨seg, hseg, hcm⟩, hcw⟩

theorem joinNL_mem (c : Char) : ∀ (L : List (List Char)) (seg : List Char),
    seg ∈ L → c ∈ seg → c ∈ joinNL L := by
  intro L
  induction L with
  | nil => intro seg hseg _; cases hseg
  | cons x r ih =>
    intro seg hseg hc
    cases r with
    | nil =>
      rcases List.mem_cons.mp hseg with he | h0
      · subst he
        simpa [joinNL] using hc
      · cases h0
    | cons y rr =>
      rw [joinNL]
      rcases List.mem_cons.mp hseg with he | hrest
      · subst he
        exact List.mem_append.mpr (Or.inl hc)
      · exact List.mem_append.mpr (Or.inr (List.mem_cons_of_mem _ (ih seg hrest hc)))

theorem getTextSep_ink (n : Node) (h : getTextSep n ≠ "") :
    HasInk (getTextSep n) := by
  unfold getTextSep at *
  cases hL : strippedSegs n with
  | nil =>
    rw [hL] at h
    exact absurd rfl h
  | cons seg r =>
    have hseg : seg ∈ strippedSegs n := by
      rw [hL]
      exact List.mem_cons_self _ _
    obtain ⟨c, hcm, hcw⟩ := strippedSegs_mem_has_ink n seg hseg
    refine ⟨c, ?_, hcw⟩
    show c ∈ joinNL (seg :: r)
    exact joinNL_mem c _ seg (List.mem_cons_self _ _) hcm

theorem pyStrip_ne_empty (s : String) (h : HasInk s) : pyStrip s ≠ "" := by
  obtain ⟨c, hm, hw⟩ := h
  unfold pyStrip
  intro he
  have hne : stripChars s.data ≠ [] := stripChars_ne_nil s.data ⟨c, hm, hw⟩
  apply hne
  have := congrArg String.data he
  simpa using this

theorem bestText_ink (n : Node) (h : getTextStrip n ≠ "") :
    HasInk (bestText n) := by
  unfold bestText
  by_cases hc : (getTextSep n).length > (getTextStrip n).length
  · rw [if_pos hc]
    apply getTextSep_ink
    intro he
    rw [he] at hc
    simp at hc
  · rw [if_neg hc]
    exact getTextStrip_ink n h

theorem whileWalkC_shape (walk : List Node) : ∀ vis : Nat,
    (whileWalkC walk [] vis).1 = [] ∨
    ∃ cur, (whileWalkC walk [] vis).1 = [bestText cur] ∧
      getTextStrip cur ≠ "" := by
  induction walk with
  | nil =>
    intro vis
    left
    rfl
  | cons cur rest ih =>
    intro vis
    simp only [whileWalkC]
    rw [if_pos (by decide : ([] : List String).length < 10)]
    by_cases hm : getTextStrip cur ≠ "" ∧ matchesAny (getTextStrip cur) = true
    · rw [if_pos hm]
      right
      exact ⟨cur, rfl, hm.1⟩
    · rw [if_neg hm]
      exact ih (vis + 1)

theorem joinStrNL_single (x : String) : joinStrNL [x] = x := rfl

theorem tryContexts_shape (ctxs : List (String × List Node)) :
    tryContexts ctxs = "" ∨
    ∃ cur, tryContexts ctxs = bestText cur ∧ getTextStrip cur ≠ "" := by
  induction ctxs with
  | nil =>
    left
    rfl
  | cons p rest ih =>
    obtain ⟨s, walk⟩ := p
    simp only [tryContexts]
    by_cases h1 : s ≠ "" ∧ matchesAny s = true
    · rw [if_pos h1]
      by_cases h2 : (whileWalkC walk [] 0).1 ≠ []
      · rw [if_pos h2]
        rcases whileWalkC_shape walk 0 with h | ⟨cur, he, hne⟩
        · exact absurd h h2
        · right
          refine ⟨cur, ?_, hne⟩
          rw [he]
          exact joinStrNL_single (bestText cur)
      · rw [if_neg h2]
        exact ih
    · rw [if_neg h1]
      exact ih

theorem strategy2_shape (root : Node) :
    strategy2 root = "" ∨
    ∃ e, strategy2 root = bestText e ∧ getTextStrip e ≠ "" := by
  unfold strategy2
  cases hf : (findAllTags ["p", "div", "section", "article"] root).find?
      (fun e => matchesAny (getTextStrip e)) with
  | none =>
    left
    rfl
  | some e =>
    right
    refine ⟨e, rfl, ?_⟩
    have hp := List.find?_some hf
    intro hemp
    rw [hemp] at hp
    exact absurd hp (by decide)

theorem workoutContent_ink (root : Node) (h : workoutContent root ≠ "") :
    HasInk (workoutContent root) := by
  unfold workoutContent strategy1 at *
  by_cases h1 : tryContexts (docContexts root) ≠ ""
  · rw [if_pos h1] at *
    rcases tryContexts_shape (docContexts root) with he | ⟨cur, he, hne⟩
    · exact absurd he h1
    · rw [he]
      exact bestText_ink cur hne
  · rw [if_neg h1] at *
    rcases strategy2_shape root with he | ⟨e, he, hne⟩
    · exact absurd he h
    · rw [he]
      exact bestText_ink e hne

theorem hasInk_append_right (a b : String) (h : HasInk b) :
    HasInk (a ++ b) := by
  obtain ⟨c, hm, hw⟩ := h
  refine ⟨c, ?_, hw⟩
  show c ∈ (a ++ b).data
  rw [String.data_append]
  exact List.mem_append.mpr (Or.inr hm)

theorem scaledStep_ink (acc : String) (e : Node)
    (hacc : acc = "" ∨ HasInk acc) :
    scaledStep acc e = "" ∨ HasInk (scaledStep acc e) := by
  unfold scaledStep
  repeat' split
  all_goals try exact hacc
  right
  apply hasInk_append_right
  apply getTextStrip_ink
  rename_i hlen
  intro he
  rw [he] at hlen
  simp at hlen

theorem foldl_scaledStep_ink (L : List Node) :
    ∀ acc, (acc = "" ∨ HasInk acc) →
      (L.foldl scaledStep acc = "" ∨ HasInk (L.foldl scaledStep acc)) := by
  induction L with
  | nil =>
    intro acc h
    exact h
  | cons e r ih =>
    intro acc h
    rw [List.foldl_cons]
    exact ih _ (scaledStep_ink acc e h)

theorem scaledAccum_ink (root : Node) :
    scaledAccum root = "" ∨ HasInk (scaledAccum root) := by
  unfold scaledAccum
  exact foldl_scaledStep_ink _ "" (Or.inl rfl)

theorem format_date_valid (s : String) (t : Date) (ht : t.valid = true) :
    ∃ d, d.valid = true ∧ format_date s t = renderDate d := by
  unfold format_date
  by_cases h1 : (s.length == 6 && s.data.all Char.isDigit) = true
  · rw [if_pos h1]
    by_cases h2 : (1 ≤ tokMM s ∧ tokMM s ≤ 12 ∧ 1 ≤ tokDD s ∧ tokDD s ≤ 31)
    · rw [if_pos h2]
      by_cases h3 : Date.valid ⟨tokYear s, tokMM s, tokDD s⟩ = true
      · rw [if_pos h3]
        exact ⟨_, h3, rfl⟩
      · rw [if_neg h3]
        exact ⟨t, ht, rfl⟩
    · rw [if_neg h2]
      exact ⟨t, ht, rfl⟩
  · rw [if_neg h1]
    exact ⟨t, ht, rfl⟩

theorem parse_wod_complete (root : Node) (today : Date)
    (htoday : today.valid = true) : Complete (parse_wod root today) := by
  refine ⟨?_, ?_, ?_⟩
  · show (if workoutContent root ≠ "" then pyStrip (workoutContent root)
        else "Workout details not found") ≠ ""
    by_cases h : workoutContent root ≠ ""
    · rw [if_pos h]
      exact pyStrip_ne_empty _ (workoutContent_ink root h)
    · rw [if_neg h]
      decide
  · intro sc hsc
    have hsc' : (if scaledAccum root ≠ "" then some (pyStrip (scaledAccum root))
        else none) = some sc := hsc
    by_cases h : scaledAccum root ≠ ""
    · rw [if_pos h] at hsc'
      have he : sc = pyStrip (scaledAccum root) := (Option.some_inj.mp hsc').symm
      subst he
      rcases scaledAccum_ink root with h0 | hink
      · exact absurd h0 h
      · exact pyStrip_ne_empty _ hink
    · rw [if_neg h] at hsc'
      cases hsc'
  · exact format_date_valid (dateStr root) today htoday

theorem parseErrorRecord_complete (e : String) (today : Date)
    (htoday : today.valid = true) : Complete (parseErrorRecord e today) := by
  refine ⟨?_, ?_, ⟨today, htoday, rfl⟩⟩
  · show ("Error parsing workout: " ++ e) ≠ ""
    intro h
    have hlen := congrArg String.length h
    rw [String.length_append] at hlen
    have h23 : ("Error parsing workout: ").length = 23 := rfl
    rw [h23] at hlen
    simp at hlen
  · intro sc hsc
    cases hsc

/-- C2: on every parsed markup and valid current date, `parse_wod` returns a
record whose workout field is non-empty (the sentinel when nothing matched),
whose scaled field is absent or non-empty, and whose formatted date renders a
valid calendar date — and the record of the internal exception path
satisfies the same invariants. -/
theorem parse_wod_record_invariants (root : Node) (today : Date)
    (htoday : today.valid = true) :
    Complete (parse_wod root today) ∧
      (workoutContent root = "" →
        (parse_wod root today).workout = "Workout details not found") ∧
      (∀ e, Complete (parseErrorRecord e today)) := by
  refine ⟨parse_wod_complete root today htoday, ?_,
    fun e => parseErrorRecord_complete e today htoday⟩
  intro h
  show (if workoutContent root ≠ "" then pyStrip (workoutContent root)
    else "Workout details not found") = "Workout details not found"
  rw [if_neg (not_not_intro h)]

theorem parse_wod_record_invariants_witness :
    Complete (parse_wod docC5 ⟨2025, 12, 1⟩) ∧
    (workoutContent docC5 = "" →
      (parse_wod docC5 ⟨2025, 12, 1⟩).workout = "Workout details not found") ∧
    (∀ e, Complete (parseErrorRecord e ⟨2025, 12, 1⟩)) :=
  parse_wod_record_invariants docC5 ⟨2025, 12, 1⟩ (by decide)

/-! ## Pipeline error propagation (C6) -/

/-- C6 fails on the code: when the fetcher exhausts all its retries (every
attempt times out), `get_todays_wod` does not propagate the fetch error — it
returns the fixed fallback record. -/
theorem get_todays_wod_no_propagation_cex :
    (fetch_wod_html (fun _ => Outcome.timeout) 3 1).result =
      Except.error ⟨3⟩ ∧
    get_todays_wod (fun _ => Node.text "") (fun _ => Outcome.timeout)
      ⟨2025, 12, 1⟩ = fallbackRecord ⟨2025, 12, 1⟩ :=
  ⟨rfl, rfl⟩

/-- C6 amended: `get_todays_wod` never propagates a hard error to its caller.
When the fetch succeeds it returns the `parse_wod` record of the fetched
markup, which satisfies the completeness invariants; when the fetch exhausts
its retries it catches the error itself and returns the fixed fallback
record. -/
theorem get_todays_wod_amended (parseHtml : String → Node)
    (outcomes : Nat → Outcome) (today : Date) (htoday : today.valid = true) :
    (∀ err, (fetch_wod_html outcomes 3 1).result = .error err →
      get_todays_wod parseHtml outcomes today = fallbackRecord today) ∧
    (∀ html, (fetch_wod_html outcomes 3 1).result = .ok html →
      get_todays_wod parseHtml outcomes today =
          parse_wod (parseHtml html) today ∧
        Complete (parse_wod (parseHtml html) today)) := by
  constructor
  · intro err he
    unfold get_todays_wod
    rw [he]
  · intro html hh
    unfold get_todays_wod
    rw [hh]
    exact ⟨rfl, parse_wod_complete (parseHtml html) today htoday⟩

theorem get_todays_wod_amended_witness :
    (∀ err, (fetch_wod_html (fun _ => Outcome.timeout) 3 1).result =
        .error err →
      get_todays_wod (fun _ => docC5) (fun _ => Outcome.timeout)
          ⟨2025, 12, 1⟩ = fallbackRecord ⟨2025, 12, 1⟩) ∧
    (∀ html, (fetch_wod_html (fun _ => Outcome.timeout) 3 1).result =
        .ok html →
      get_todays_wod (fun _ => docC5) (fun _ => Outcome.timeout)
          ⟨2025, 12, 1⟩ = parse_wod docC5 ⟨2025, 12, 1⟩ ∧
        Complete (parse_wod docC5 ⟨2025, 12, 1⟩)) :=
  get_todays_wod_amended (fun _ => docC5) (fun _ => Outcome.timeout)
    ⟨2025, 12, 1⟩ (by decide)

/-! ## Substring machinery for the bounded-walk claim (C8) -/

theorem startsWithCL_decomp (sub : List Char) : ∀ hay : List Char,
    startsWithCL sub hay = true → ∃ v, hay = sub ++ v := by
  induction sub with
  | nil =>
    intro hay _
    exact ⟨hay, rfl⟩
  | cons a as ih =>
    intro hay h
    cases hay with
    | nil => cases h
    | cons b bs =>
      simp only [startsWithCL, Bool.and_eq_true, beq_iff_eq] at h
      obtain ⟨he, h2⟩ := h
      obtain ⟨v, hv⟩ := ih bs h2
      subst he
      exact ⟨v, by rw [hv, List.cons_append]⟩

theorem startsWithCL_self_append (sub v : List Char) :
    startsWithCL sub (sub ++ v) = true := by
  induction sub with
  | nil => rfl
  | cons a as ih => simp [startsWithCL, ih]

theorem subL_iff_SubIn (hay sub : List Char) :
    subL hay sub = true ↔ SubIn sub hay := by
  induction hay with
  | nil =>
    constructor
    · intro h
      cases sub with
      | nil => exact ⟨[], [], rfl⟩
      | cons a as => cases h
    · rintro ⟨u, v, he⟩
      have hu : u ++ sub ++ v = [] := he.symm
      rcases List.append_eq_nil.mp hu with ⟨h1, h2⟩
      rcases List.append_eq_nil.mp h1 with ⟨h3, h4⟩
      subst h4
      rfl
  | cons c t ih =>
    simp only [subL, Bool.or_eq_true]
    constructor
    · intro h
      rcases h with h1 | h2
      · obtain ⟨v, hv⟩ := startsWithCL_decomp sub (c :: t) h1
        exact ⟨[], v, by rw [hv]; rfl⟩
      · obtain ⟨u, v, hv⟩ := ih.mp h2
        exact ⟨c :: u, v, by rw [List.cons_append, List.cons_append, ← hv]⟩
    · rintro ⟨u, v, hv⟩
      cases u with
      | nil =>
        left
        simp only [List.nil_append] at hv
        rw [hv]
        exact startsWithCL_self_append sub v
      | cons d u2 =>
        right
        apply ih.mpr
        rw [List.cons_append, List.cons_append] at hv
        injection hv with h1 h2
        exact ⟨u2, v, h2⟩

theorem SubIn_append_left (sub a b : List Char) (h : SubIn sub b) :
    SubIn sub (a ++ b) := by
  obtain ⟨u, v, he⟩ := h
  refine ⟨a ++ u, v, ?_⟩
  rw [he]
  simp [List.append_assoc]

theorem SubIn_append_right (sub a b : List Char) (h : SubIn sub a) :
    SubIn sub (a ++ b) := by
  obtain ⟨u, v, he⟩ := h
  refine ⟨u, v ++ b, ?_⟩
  rw [he]
  simp [List.append_assoc]

theorem dropWhile_lowerL (l : List Char) :
    (lowerL l).dropWhile ws = lowerL (l.dropWhile ws) := by
  induction l with
  | nil => rfl
  | cons c t ih =>
    simp only [lowerL, List.map_cons, List.dropWhile_cons, ws_toLower c]
    by_cases hw : ws c = true
    · rw [if_pos hw, if_pos hw]
      exact ih
    · rw [if_neg hw, if_neg hw]
      rfl

theorem reverse_lowerL (l : List Char) :
    (lowerL l).reverse = lowerL l.reverse := by
  simp [lowerL, List.map_reverse]

theorem stripChars_lowerL (l : List Char) :
    stripChars (lowerL l) = lowerL (stripChars l) := by
  show (((lowerL l).dropWhile ws).reverse.dropWhile ws).reverse =
    lowerL ((l.dropWhile ws).reverse.dropWhile ws).reverse
  rw [dropWhile_lowerL, reverse_lowerL, dropWhile_lowerL, reverse_lowerL]

theorem SubIn_dropWhile (sub : List Char) (c0 : Char) (cs0 : List Char)
    (hsub : sub = c0 :: cs0) (hc0 : ws c0 = false) :
    ∀ u v : List Char, SubIn sub (u ++ sub ++ v ) →
      SubIn sub ((u ++ sub ++ v).dropWhile ws) := by
  intro u
  induction u with
  | nil =>
    intro v _
    rw [List.nil_append, hsub, List.cons_append, List.dropWhile_cons,
      if_neg (by rw [hc0]; exact Bool.false_ne_true)]
    exact ⟨[], v, by simp⟩
  | cons d u2 ih =>
    intro v hv
    rw [List.cons_append, List.cons_append, List.dropWhile_cons]
    by_cases hd : ws d = true
    · rw [if_pos hd]
      exact ih v ⟨u2, v, rfl⟩
    · rw [if_neg hd]
      exact ⟨d :: u2, v, by simp [List.append_assoc]⟩

theorem SubIn_dropWhile_of (sub l : List Char) (c0 : Char) (cs0 : List Char)
    (hsub : sub = c0 :: cs0) (hc0 : ws c0 = false) (h : SubIn sub l) :
    SubIn sub (l.dropWhile ws) := by
  obtain ⟨u, v, he⟩ := h
  subst he
  exact SubIn_dropWhile sub c0 cs0 hsub hc0 u v ⟨u, v, rfl⟩

theorem SubIn_reverse (sub l : List Char) (h : SubIn sub l) :
    SubIn sub.reverse l.reverse := by
  obtain ⟨u, v, he⟩ := h
  subst he
  exact ⟨v.reverse, u.reverse, by simp [List.reverse_append, List.append_assoc]⟩

theorem SubIn_stripChars (sub l : List Char)
    (hhead : ∃ c cs, sub = c :: cs ∧ ws c = false)
    (hlast : ∃ c cs, sub.reverse = c :: cs ∧ ws c = false)
    (h : SubIn sub l) : SubIn sub (stripChars l) := by
  obtain ⟨c0, cs0, hs0, hw0⟩ := hhead
  obtain ⟨c1, cs1, hs1, hw1⟩ := hlast
  have h1 : SubIn sub (l.dropWhile ws) := SubIn_dropWhile_of sub l c0 cs0 hs0 hw0 h
  have h2 : SubIn sub.reverse ((l.dropWhile ws).reverse) := SubIn_reverse _ _ h1
  have h3 : SubIn sub.reverse (((l.dropWhile ws).reverse).dropWhile ws) :=
    SubIn_dropWhile_of _ _ c1 cs1 hs1 hw1 h2
  have h4 := SubIn_reverse _ _ h3
  rw [List.reverse_reverse] at h4
  exact h4

theorem SubIn_lowerL_flatten (sub : List Char) (L : List (List Char))
    (seg : List Char) (hseg : seg ∈ L) (h : SubIn sub (lowerL seg)) :
    SubIn sub (lowerL L.flatten) := by
  induction L with
  | nil => cases hseg
  | cons x r ih =>
    have hfl : lowerL ((x :: r).flatten) = lowerL x ++ lowerL r.flatten := by
      simp [lowerL, List.flatten_cons]
    rw [hfl]
    rcases List.mem_cons.mp hseg with he | hm
    · subst he
      exact SubIn_append_right _ _ _ h
    · exact SubIn_append_left _ _ _ (ih hm)

/-- Both edge characters of a non-empty character list are non-whitespace. -/
def edgeOK (l : List Char) : Bool :=
  (match l with
   | c :: _ => !ws c
   | [] => false) &&
  (match l.reverse with
   | c :: _ => !ws c
   | [] => false)

theorem edgeOK_head (l : List Char) (h : edgeOK l = true) :
    ∃ c cs, l = c :: cs ∧ ws c = false := by
  unfold edgeOK at h
  simp only [Bool.and_eq_true] at h
  obtain ⟨h1, _⟩ := h
  rcases l with _ | ⟨c, cs⟩
  · cases h1
  · refine ⟨c, cs, rfl, ?_⟩
    simpa using h1

theorem edgeOK_last (l : List Char) (h : edgeOK l = true) :
    ∃ c cs, l.reverse = c :: cs ∧ ws c = false := by
  unfold edgeOK at h
  simp only [Bool.and_eq_true] at h
  obtain ⟨_, h2⟩ := h
  rcases hrev : l.reverse with _ | ⟨c, cs⟩
  · rw [hrev] at h2
    cases h2
  · rw [hrev] at h2
    refine ⟨c, cs, rfl, ?_⟩
    simpa using h2

theorem patterns_edgeOK : ∀ p ∈ workout_patterns, edgeOK (lowerL p.data) = true := by
  decide

theorem matchesAny_parent (h : Node) (s : String)
    (hseg : s.data ∈ rawSegs h) (hm : matchesAny s = true) :
    getTextStrip h ≠ "" ∧ matchesAny (getTextStrip h) = true := by
  obtain ⟨p, hp, hc⟩ := List.any_eq_true.mp hm
  have hsub : SubIn (lowerL p.data) (lowerL s.data) :=
    (subL_iff_SubIn (lowerL s.data) (lowerL p.data)).mp hc
  have hedge := patterns_edgeOK p hp
  have hsub2 : SubIn (lowerL p.data) (stripChars (lowerL s.data)) :=
    SubIn_stripChars _ _ (edgeOK_head _ hedge) (edgeOK_last _ hedge) hsub
  rw [stripChars_lowerL] at hsub2
  have hne : stripChars s.data ≠ [] := by
    intro he
    rw [he] at hsub2
    obtain ⟨u, v, huv⟩ := hsub2
    obtain ⟨c0, cs0, hs0, _⟩ := edgeOK_head _ hedge
    rw [hs0] at huv
    have hL := congrArg List.length huv
    simp [lowerL] at hL
    omega
  have hmem : stripChars s.data ∈ strippedSegs h := by
    unfold strippedSegs
    apply List.mem_filter.mpr
    constructor
    · exact List.mem_map.mpr ⟨s.data, hseg, rfl⟩
    · simpa using hne
  have hfl : SubIn (lowerL p.data) (lowerL (strippedSegs h).flatten) :=
    SubIn_lowerL_flatten _ _ _ hmem hsub2
  constructor
  · intro he
    have hge : (strippedSegs h).flatten = [] := by
      have := congrArg String.data he
      simpa [getTextStrip] using this
    rw [hge] at hfl
    obtain ⟨u, v, huv⟩ := hfl
    obtain ⟨c0, cs0, hs0, _⟩ := edgeOK_head _ hedge
    rw [hs0] at huv
    have hL := congrArg List.length huv
    simp [lowerL] at hL
    omega
  · apply List.any_eq_true.mpr
    refine ⟨p, hp, ?_⟩
    exact (subL_iff_SubIn (lowerL (strippedSegs h).flatten) (lowerL p.data)).mpr hfl

theorem rawSegs_of_text_child (h : Node) (s : String)
    (hc : Node.text s ∈ childrenOf h) : s.data ∈ rawSegs h := by
  match h with
  | .text s2 => cases hc
  | .elem t cs =>
    show s.data ∈ rawSegsList cs
    have hcs : Node.text s ∈ cs := hc
    clear hc
    induction cs with
    | nil => cases hcs
    | cons x r ih =>
      rw [rawSegsList]
      rcases List.mem_cons.mp hcs with he | hmr
      · rw [← he]
        exact List.mem_append.mpr (Or.inl (List.mem_cons_self _ _))
      · exact List.mem_append.mpr (Or.inr (ih hmr))

mutual

theorem ctxChildren_walk (hd : Node) (tl l : List Node)
    (hl : ∀ x ∈ l, x ∈ childrenOf hd) (s : String) (w : List Node)
    (hmem : (s, w) ∈ ctxChildren (hd :: tl) l) :
    ∃ h rest, w = h :: rest ∧ Node.text s ∈ childrenOf h := by
  match l, hl, hmem with
  | [], _, hmem => cases hmem
  | .text s2 :: rest, hl, hmem =>
    rcases List.mem_cons.mp hmem with he | hm2
    · injection he with hs hw
      subst hs
      subst hw
      exact ⟨hd, tl, rfl, hl _ (List.mem_cons_self _ _)⟩
    · exact ctxChildren_walk hd tl rest
        (fun x hx => hl x (List.mem_cons_of_mem _ hx)) s w hm2
  | .elem t cs :: rest, hl, hmem =>
    rcases List.mem_append.mp hmem with hm1 | hm2
    · exact ctxElem_walk (.elem t cs) rest s w hm1
    · exact ctxChildren_walk hd tl rest
        (fun x hx => hl x (List.mem_cons_of_mem _ hx)) s w hm2
termination_by sizeOf l

theorem ctxElem_walk (n : Node) (sibs : List Node) (s : String) (w : List Node)
    (hmem : (s, w) ∈ ctxElem n sibs) :
    ∃ h rest, w = h :: rest ∧ Node.text s ∈ childrenOf h := by
  match n, hmem with
  | .text s2, hmem => cases hmem
  | .elem t cs, hmem =>
    exact ctxChildren_walk (.elem t cs) sibs cs (fun x hx => hx) s w hmem
termination_by sizeOf n

end

theorem docContexts_walk (root : Node) (s : String) (w : List Node)
    (hctx : (s, w) ∈ docContexts root) :
    ∃ h rest, w = h :: rest ∧ Node.text s ∈ childrenOf h := by
  unfold docContexts at hctx
  exact ctxChildren_walk root [] (childrenOf root) (fun x hx => hx) s w hctx

/-- C8: in the keyword-anchored strategy, the forward walk from a matching
text node over its enclosing element and subsequent siblings examines exactly
one node — the enclosing element's stripped text always contains the matched
pattern, so the walk stops immediately; in particular it never examines an
unbounded number of siblings, on any input document. -/
theorem walk_bounded (root : Node) (s : String) (w : List Node)
    (hctx : (s, w) ∈ docContexts root) (hm : matchesAny s = true) :
    (whileWalkC w [] 0).2 = 1 := by
  obtain ⟨h, rest, hw, hchild⟩ := docContexts_walk root s w hctx
  subst hw
  obtain ⟨hne, hmp⟩ := matchesAny_parent h s (rawSegs_of_text_child h s hchild) hm
  simp only [whileWalkC]
  rw [if_pos (by decide : ([] : List String).length < 10), if_pos ⟨hne, hmp⟩]

theorem walk_bounded_witness :
    (whileWalkC
      [Node.elem "p" [.text "For time: 21-15-9 Pull-ups, Push-ups, Air squats"],
       Node.elem "p" [.text "Scaled: Assisted pull-ups, knee push-ups, air squats"]]
      [] 0).2 = 1 :=
  walk_bounded docC5 "For time: 21-15-9 Pull-ups, Push-ups, Air squats"
    [Node.elem "p" [.text "For time: 21-15-9 Pull-ups, Push-ups, Air squats"],
     Node.elem "p" [.text "Scaled: Assisted pull-ups, knee push-ups, air squats"]]
    (List.mem_cons_of_mem _ (List.mem_cons_self _ _)) (by decide)

end Wod
